import Mathlib

/-!
Shallow embedding of `SNANA_FITS_to_pd.py`: the `read_fits` conversion
routine (sentinel trimming, sentinel-delimited segmentation assigning
header SNIDs to photometry rows, class-code remapping, band-code
mapping) and the batch driver loop (path derivation by substring
substitution, skip-if-exists, skip-if-empty).

Floats are modelled as exact rationals (the script only ever compares
the MJD column for equality with the literal -777.0).  Fallible
indexing (numpy index on an empty array, pandas `.iloc` out of range)
is modelled with `Except`.
-/

instance {ε α : Type} [DecidableEq ε] [DecidableEq α] : DecidableEq (Except ε α) := fun x y =>
  match x, y with
  | .error a, .error b =>
    if h : a = b then .isTrue (by rw [h]) else .isFalse (by intro hc; cases hc; exact h rfl)
  | .ok a, .ok b =>
    if h : a = b then .isTrue (by rw [h]) else .isFalse (by intro hc; cases hc; exact h rfl)
  | .error _, .ok _ => .isFalse (by intro hc; cases hc)
  | .ok _, .error _ => .isFalse (by intro hc; cases hc)

/-- A Python runtime error raised by the script (numpy/pandas out-of-range
indexing is the only kind the modelled code can raise). -/
inductive PyErr
  | indexError
deriving DecidableEq

/-- One raw photometry row, as loaded from the PHOT file: the columns
`read_fits` touches (MJD, the FLT/BAND filter column, FLUXCAL, FLUXCALERR). -/
structure PhotRow where
  mjd : Rat
  band : String
  fluxcal : Rat
  fluxcalerr : Rat
deriving DecidableEq

/-- One raw header row, as loaded from the HEAD file: the columns
`read_fits` selects. -/
structure HeadRow where
  snid : Int
  sntype : Int
  peakmjd : Rat
  redshift_final : Rat
  redshift_final_err : Rat
  mwebv : Rat
deriving DecidableEq

/-- A row of the returned header dataframe (after selection and renaming). -/
structure HeadOut where
  object_id : Int
  true_target : Int
  true_peakmjd : Rat
  true_z : Rat
  true_z_err : Rat
  mwebv : Rat
deriving DecidableEq

/-- A row of the returned photometry dataframe (after selection, renaming
and passband mapping). -/
structure PhotOut where
  object_id : Int
  mjd : Rat
  passband : Int
  flux : Rat
  flux_err : Rat
deriving DecidableEq

/-- The sentinel timestamp -777.0 marking light-curve separators. -/
def sentinel : Rat := -777

/-- `astype(np.int32)`: wrap an integer into the signed 32-bit range. -/
def toInt32 (n : Int) : Int := (n + 2 ^ 31) % 2 ^ 32 - 2 ^ 31

/-- Line 31-34 of the source: drop the last row if its MJD is the sentinel,
then (independently) drop the first row of the result if its MJD is the
sentinel.  Reading `values[0]` of an empty column raises `IndexError`. -/
def trimPhot (l : List PhotRow) : Except PyErr (List PhotRow) :=
  let l1 := match l.getLast? with
    | some r => if r.mjd = sentinel then l.dropLast else l
    | none => l
  match l1.head? with
  | some r => .ok (if r.mjd = sentinel then l1.drop 1 else l1)
  | none => .error .indexError

/-- `np.where(df_phot["MJD"].values == -777.0)[0]`, positions counted from
`i`: the (sorted) indices of the sentinel rows. -/
def sentinelPosFrom (i : Nat) : List PhotRow → List Nat
  | [] => []
  | r :: rs =>
    if r.mjd = sentinel then i :: sentinelPosFrom (i + 1) rs
    else sentinelPosFrom (i + 1) rs

/-- The sorted list of indices of sentinel rows (`np.where(... == -777.0)[0]`). -/
def sentinelPositions (l : List PhotRow) : List Nat := sentinelPosFrom 0 l

/-- `arr_ID[start:end] = v` element by element, where `i` is the index of the
head of the remaining list (numpy slice assignment clips to the array). -/
def fillRangeFrom (start stop : Nat) (v : Int) : Nat → List Int → List Int
  | _, [] => []
  | i, x :: xs =>
    (if start ≤ i ∧ i < stop then v else x) :: fillRangeFrom start stop v (i + 1) xs

/-- `arr_ID[start:end] = v`: numpy integer-array slice assignment. -/
def fillRange (arr : List Int) (start stop : Nat) (v : Int) : List Int :=
  fillRangeFrom start stop v 0 arr

/-- The loop of lines 47-50: for each consecutive boundary pair `(start, end)`
(the `k`-th pair, counting from `k = k0`), evaluate
`df_header.SNID.iloc[k]` (raising `IndexError` when out of range, exactly as
pandas does, even when the slice `start:end` is empty) and assign it to
`arr_ID[start:end]`. -/
def fillLoop (snids : List Int) : List Int → Nat → List (Nat × Nat) → Except PyErr (List Int)
  | arr, _, [] => .ok arr
  | arr, k, se :: rest =>
    match snids.get? k with
    | none => .error .indexError
    | some v => fillLoop snids (fillRange arr se.1 se.2 v) (k + 1) rest

/-- The list of consecutive pairs of a list (pairs of adjacent boundaries). -/
def adjPairs (l : List Nat) : List (Nat × Nat) := l.zip l.tail

/-- Lines 42-50: build `arr_ID` for the (trimmed) photometry table `p1`:
boundaries are `hstack(([0], arr_idx, [len(df_phot)]))` and each block
between consecutive boundaries receives the corresponding header SNID. -/
def segmentArr (snids : List Int) (p1 : List PhotRow) : Except PyErr (List Int) :=
  fillLoop snids (List.replicate p1.length 0) 0
    (adjPairs (0 :: (sentinelPositions p1 ++ [p1.length])))

/-- The `true_target` class-collapsing replacement dictionary of lines 60-61. -/
def remapTarget (t : Int) : Int :=
  if t = 120 then 42 else if t = 20 then 42
  else if t = 121 then 42 else if t = 21 then 42
  else if t = 122 then 42 else if t = 22 then 42
  else if t = 130 then 62 else if t = 30 then 62
  else if t = 131 then 62 else if t = 31 then 62
  else if t = 101 then 90 else if t = 1 then 90
  else if t = 102 then 52 else if t = 2 then 52
  else if t = 104 then 64 else if t = 4 then 64
  else if t = 103 then 95 else if t = 3 then 95
  else if t = 191 then 67 else if t = 91 then 67
  else t

/-- The `passband_dict` of line 63: the fixed band vocabulary; `none` for a
band code outside the vocabulary (such rows are filtered out at line 65). -/
def bandCode (b : String) : Option Int :=
  if b = "u " then some 0 else if b = "g " then some 1
  else if b = "r " then some 2 else if b = "i " then some 3
  else if b = "z " then some 4 else if b = "Y " then some 5
  else none

/-- One header output row (lines 57 and 59-61): select, rename, remap classes;
SNID was already coerced to int32 at line 39. -/
def headerOutOf (h : HeadRow) : HeadOut :=
  ⟨toInt32 h.snid, remapTarget h.sntype, h.peakmjd, h.redshift_final,
    h.redshift_final_err, h.mwebv⟩

/-- One photometry output row (lines 58 and 62-66): select, rename, and the
combination of the `isin` filter (line 65) with the `replace` of the band
codes (line 66): a row survives exactly when its band is in the vocabulary,
and then carries the integer passband code. -/
def photOutOf (pr : Int × PhotRow) : Option PhotOut :=
  (bandCode pr.2.band).map fun c =>
    ⟨pr.1, pr.2.mjd, c, pr.2.fluxcal, pr.2.fluxcalerr⟩

/-- `read_fits` (lines 12-68) on already-loaded photometry and header tables
(file loading itself is outside the model; the header table is the one found
at the derived HEAD path).  Returns the (header dataframe, photometry
dataframe) pair, or the Python error the script would raise. -/
def readFits (phot : List PhotRow) (hdr : List HeadRow) (dropSeparators : Bool) :
    Except PyErr (List HeadOut × List PhotOut) :=
  if phot = [] then .ok ([], [])
  else
    match trimPhot phot with
    | .error e => .error e
    | .ok p1 =>
      let snids := hdr.map fun h => toInt32 h.snid
      match segmentArr snids p1 with
      | .error e => .error e
      | .ok arrID =>
        let tagged := arrID.zip p1
        let kept := if dropSeparators then tagged.filter fun pr => pr.2.mjd ≠ sentinel
          else tagged
        .ok (hdr.map headerOutOf, kept.filterMap photOutOf)

/-- Does `pat` occur at the very front of `s`? (the matching step of
Python's left-to-right `str.replace` scan). -/
def listStartsWith : List Char → List Char → Bool
  | [], _ => true
  | _ :: _, [] => false
  | p :: ps, c :: cs => p = c && listStartsWith ps cs

/-- Python `str.replace`: scan left to right; wherever the pattern matches,
emit the replacement and skip past the match (non-overlapping), otherwise
copy one character.  `fuel` bounds the recursion by the input length; an
empty pattern is never used by the script (Python would behave differently
there). -/
def repAux (pat rep : List Char) : Nat → List Char → List Char
  | _, [] => []
  | 0, s => s
  | fuel + 1, c :: cs =>
    if pat ≠ [] ∧ listStartsWith pat (c :: cs) then
      rep ++ repAux pat rep fuel (List.drop pat.length (c :: cs))
    else
      c :: repAux pat rep fuel cs

/-- Python `s.replace(pat, rep)` on character lists. -/
def replaceAll (pat rep s : List Char) : List Char := repAux pat rep s.length s

/-- Python `s.replace(pat, rep)` on strings. -/
def strReplace (s pat rep : String) : String :=
  String.mk (replaceAll pat.data rep.data s.data)

/-- Line 37 of the source: the HEAD path is derived from the PHOT path by
`fname.replace("PHOT", "HEAD")` — a global substitution over the whole
path string. -/
def headerPath (fname : String) : String := strReplace fname "PHOT" "HEAD"

/-- `os.path.basename` (POSIX): everything after the last slash. -/
def basename (p : String) : String :=
  String.mk ((p.data.reverse.takeWhile fun c => c ≠ '/').reverse)

/-- `os.path.join` (POSIX, two arguments). -/
def joinPath (a b : String) : String :=
  if b.data.head? = some '/' then b
  else if a.data = [] then b
  else if a.data.getLast? = some '/' then String.mk (a.data ++ b.data)
  else String.mk (a.data ++ '/' :: b.data)

/-- Line 97: the header-CSV output path of an input photometry path. -/
def metaPath (outputDir p : String) : String :=
  joinPath outputDir (strReplace (basename p) "PHOT.FITS.gz" "HEAD.csv")

/-- Line 98: the photometry-CSV output path of an input photometry path. -/
def lcPath (outputDir p : String) : String :=
  joinPath outputDir (strReplace (basename p) ".FITS.gz" ".csv")

/-- Observable file-system effects of one driver-loop iteration. -/
inductive FileAction
  | readInput (p : String)
  | writeFile (p : String)
deriving DecidableEq

/-- One iteration of the driver loop (lines 96-107): skip entirely when the
header-CSV path already exists; otherwise read the input (via the abstract
`reader`, which stands for `read_fits` on the file at that path and may
raise); when the header table is empty write nothing, otherwise write both
CSVs. -/
def driverStep (outputDir : String) (existing : List String)
    (reader : String → Except PyErr (List HeadOut × List PhotOut)) (p : String) :
    Except PyErr (List FileAction) :=
  if metaPath outputDir p ∈ existing then .ok []
  else
    match reader p with
    | .error e => .error e
    | .ok (metadata, _lcdata) =>
      if metadata = [] then .ok [.readInput p]
      else .ok [.readInput p, .writeFile (metaPath outputDir p),
        .writeFile (lcPath outputDir p)]

/-- The driver loop over all discovered photometry paths, collecting the
file-system effects in order (an uncaught error aborts the run). -/
def driverRun (outputDir : String) (existing : List String)
    (reader : String → Except PyErr (List HeadOut × List PhotOut)) :
    List String → Except PyErr (List FileAction)
  | [] => .ok []
  | p :: ps =>
    match driverStep outputDir existing reader p with
    | .error e => .error e
    | .ok acts =>
      match driverRun outputDir existing reader ps with
      | .error e => .error e
      | .ok rest => .ok (acts ++ rest)

example :
    readFits [⟨1, "u ", 2, 3⟩] [⟨5, 1, 0, 0, 0, 0⟩] false =
      .ok ([⟨5, 90, 0, 0, 0, 0⟩], [⟨5, 1, 0, 2, 3⟩]) := by decide

/-- `astype(np.int32)` is the identity on values already in int32 range. -/
theorem toInt32_eq_self (n : Int) (h1 : -2 ^ 31 ≤ n) (h2 : n < 2 ^ 31) :
    toInt32 n = n := by
  unfold toInt32
  rw [Int.emod_eq_of_lt (by omega) (by omega)]
  omega

/-- C3: on a photometry table with at least two rows whose first and last
rows both carry the sentinel MJD, the trimming step removes exactly the
last row and then exactly the first row — nothing else, regardless of any
further sentinel rows at the new ends. -/
theorem c3_trim_removes_one_row_each_end (l : List PhotRow) (r₁ r₂ : PhotRow)
    (hlen : 2 ≤ l.length) (hh : l.head? = some r₁) (hm₁ : r₁.mjd = sentinel)
    (hl : l.getLast? = some r₂) (hm₂ : r₂.mjd = sentinel) :
    trimPhot l = .ok (l.dropLast.drop 1) := by
  match l with
  | [] => simp at hlen
  | [x] => simp at hlen
  | x :: y :: t =>
    rw [List.head?_cons] at hh
    obtain rfl : r₁ = x := (Option.some.inj hh).symm
    simp [trimPhot, hl, hm₂, hm₁, List.dropLast_cons₂]

/-- Witness for C3: a four-row table of nothing but sentinel rows still
loses exactly one row from each end. -/
theorem c3_trim_removes_one_row_each_end_witness :
    trimPhot [⟨sentinel, "- ", 0, 0⟩, ⟨sentinel, "- ", 1, 1⟩,
        ⟨sentinel, "- ", 2, 2⟩, ⟨sentinel, "- ", 3, 3⟩] =
      .ok [⟨sentinel, "- ", 1, 1⟩, ⟨sentinel, "- ", 2, 2⟩] := by
  have h := c3_trim_removes_one_row_each_end
    [⟨sentinel, "- ", 0, 0⟩, ⟨sentinel, "- ", 1, 1⟩,
      ⟨sentinel, "- ", 2, 2⟩, ⟨sentinel, "- ", 3, 3⟩]
    ⟨sentinel, "- ", 0, 0⟩ ⟨sentinel, "- ", 3, 3⟩
    (by decide) (by decide) (by decide) (by decide) (by decide)
  simpa using h

/-- C8: a photometry input consisting of exactly one row whose MJD is the
sentinel makes `read_fits` raise an IndexError (the end-trim removes the
only row, then the start-trim reads element 0 of an empty array) instead
of returning empty tables. -/
theorem c8_lone_sentinel_raises (r : PhotRow) (hdr : List HeadRow) (ds : Bool)
    (h : r.mjd = sentinel) : readFits [r] hdr ds = .error .indexError := by
  simp [readFits, trimPhot, h]

/-- Witness for C8 at a concrete one-sentinel-row input. -/
theorem c8_lone_sentinel_raises_witness :
    readFits [⟨sentinel, "- ", 0, 0⟩] [⟨7, 1, 0, 0, 0, 0⟩] false =
      .error .indexError :=
  c8_lone_sentinel_raises ⟨sentinel, "- ", 0, 0⟩ [⟨7, 1, 0, 0, 0, 0⟩] false rfl

/-- C4: every input path whose derived header-CSV output path already
exists is skipped entirely — no read, no write; hence a run over a list of
paths whose header-CSV outputs all exist performs no file action at all
(for any behaviour of the reader). -/
theorem c4_skip_when_output_exists (od : String) (ex : List String)
    (reader : String → Except PyErr (List HeadOut × List PhotOut))
    (paths : List String) (h : ∀ p ∈ paths, metaPath od p ∈ ex) :
    driverRun od ex reader paths = .ok [] := by
  induction paths with
  | nil => rfl
  | cons p ps ih =>
    have hp := h p (by simp)
    have hps : ∀ q ∈ ps, metaPath od q ∈ ex := fun q hq => h q (by simp [hq])
    simp [driverRun, driverStep, hp, ih hps]

/-- Witness for C4: with the header CSV already present, even a reader
that would raise is never consulted and nothing is done. -/
theorem c4_skip_when_output_exists_witness :
    driverRun "out" ["out/a_HEAD.csv"] (fun _ => .error .indexError)
      ["in/a_PHOT.FITS.gz"] = .ok [] :=
  c4_skip_when_output_exists "out" ["out/a_HEAD.csv"] (fun _ => .error .indexError)
    ["in/a_PHOT.FITS.gz"] (by decide)

/-- C5: on an empty photometry input `read_fits` returns two empty tables
without raising, and the driver then performs the read but writes neither
the header CSV nor the photometry CSV. -/
theorem c5_empty_input (hdr : List HeadRow) (ds : Bool) (od : String)
    (ex : List String)
    (reader : String → Except PyErr (List HeadOut × List PhotOut)) (p : String)
    (h1 : metaPath od p ∉ ex) (h2 : reader p = .ok ([], [])) :
    readFits [] hdr ds = .ok ([], []) ∧
      driverStep od ex reader p = .ok [.readInput p] := by
  refine ⟨rfl, ?_⟩
  simp [driverStep, h1, h2]

/-- Witness for C5 at concrete inputs. -/
theorem c5_empty_input_witness :
    readFits [] [] false = .ok ([], []) ∧
      driverStep "out" [] (fun _ => .ok ([], [])) "in/a_PHOT.FITS.gz" =
        .ok [.readInput "in/a_PHOT.FITS.gz"] :=
  c5_empty_input [] false "out" [] (fun _ => .ok ([], [])) "in/a_PHOT.FITS.gz"
    (by decide) rfl

/-- C1: the scenario stream `[(-777,·),(t1,u),(t2,g),(-777,·),(t3,r)]` with
header primary keys `[A,B]` and default flags: the rows at `t1`, `t2` come
out with `object_id = A`, the row at `t3` with `object_id = B`, and neither
sentinel row survives (the leading one is trimmed; the interior one — whose
band, being a separator, is outside the vocabulary — is removed by the band
filter). -/
theorem c1_two_block_scenario (t1 t2 t3 : Rat) (A B sA sB : Int)
    (pA pB zA zB eA eB mA mB : Rat) (b0 b3 : String)
    (f0 e0 f1 e1 f2 e2 f3 e3 f4 e4 : Rat)
    (h1 : t1 ≠ sentinel) (h2 : t2 ≠ sentinel) (h3 : t3 ≠ sentinel)
    (hb3 : bandCode b3 = none)
    (hA1 : -2 ^ 31 ≤ A) (hA2 : A < 2 ^ 31) (hB1 : -2 ^ 31 ≤ B) (hB2 : B < 2 ^ 31) :
    readFits
      [⟨sentinel, b0, f0, e0⟩, ⟨t1, "u ", f1, e1⟩, ⟨t2, "g ", f2, e2⟩,
        ⟨sentinel, b3, f3, e3⟩, ⟨t3, "r ", f4, e4⟩]
      [⟨A, sA, pA, zA, eA, mA⟩, ⟨B, sB, pB, zB, eB, mB⟩] false =
      .ok ([⟨A, remapTarget sA, pA, zA, eA, mA⟩, ⟨B, remapTarget sB, pB, zB, eB, mB⟩],
        [⟨A, t1, 0, f1, e1⟩, ⟨A, t2, 1, f2, e2⟩, ⟨B, t3, 2, f4, e4⟩]) := by
  have hA : toInt32 A = A := toInt32_eq_self A hA1 hA2
  have hB : toInt32 B = B := toInt32_eq_self B hB1 hB2
  have hu : bandCode "u " = some 0 := by decide
  have hg : bandCode "g " = some 1 := by decide
  have hr : bandCode "r " = some 2 := by decide
  simp [readFits, trimPhot, segmentArr, sentinelPositions, sentinelPosFrom,
    adjPairs, fillLoop, fillRange, fillRangeFrom, photOutOf, headerOutOf,
    List.getLast?_cons_cons, List.replicate,
    h1, h2, h3, hb3, hu, hg, hr, hA, hB]

/-- Witness for C1 at concrete timestamps, keys and band codes. -/
theorem c1_two_block_scenario_witness :
    readFits
      [⟨sentinel, "- ", 0, 0⟩, ⟨1, "u ", 10, 11⟩, ⟨2, "g ", 12, 13⟩,
        ⟨sentinel, "X ", 0, 0⟩, ⟨3, "r ", 14, 15⟩]
      [⟨11, 1, 5, 6, 7, 8⟩, ⟨22, 2, 5, 6, 7, 8⟩] false =
      .ok ([⟨11, remapTarget 1, 5, 6, 7, 8⟩, ⟨22, remapTarget 2, 5, 6, 7, 8⟩],
        [⟨11, 1, 0, 10, 11⟩, ⟨11, 2, 1, 12, 13⟩, ⟨22, 3, 2, 14, 15⟩]) :=
  c1_two_block_scenario 1 2 3 11 22 1 2 5 5 6 6 7 7 8 8 "- " "X "
    0 0 10 11 12 13 0 0 14 15
    (by decide) (by decide) (by decide) (by decide)
    (by decide) (by decide) (by decide) (by decide)

/-- Counterexample to C2 as stated: this three-row table survives trimming
unchanged, has 1 remaining sentinel row while the header has 1 row (so the
sentinel count differs from header count minus one), yet `read_fits` does
not complete: the segmentation loop evaluates `df_header.SNID.iloc[1]` on a
one-row header and raises an IndexError. -/
theorem c2_counterexample :
    trimPhot [⟨1, "u ", 0, 0⟩, ⟨sentinel, "- ", 0, 0⟩, ⟨2, "g ", 0, 0⟩] =
      .ok [⟨1, "u ", 0, 0⟩, ⟨sentinel, "- ", 0, 0⟩, ⟨2, "g ", 0, 0⟩] ∧
    sentinelPositions [⟨1, "u ", 0, 0⟩, ⟨sentinel, "- ", 0, 0⟩, ⟨2, "g ", 0, 0⟩] =
      [1] ∧
    readFits [⟨1, "u ", 0, 0⟩, ⟨sentinel, "- ", 0, 0⟩, ⟨2, "g ", 0, 0⟩]
      [⟨7, 1, 0, 0, 0, 0⟩] false = .error .indexError := by decide

/-- A band code accepted by the vocabulary is one of the six integer codes. -/
theorem bandCode_mem (b : String) (c : Int) (h : bandCode b = some c) :
    c ∈ ([0, 1, 2, 3, 4, 5] : List Int) := by
  unfold bandCode at h
  split_ifs at h <;> simp_all

/-- Every photometry output row produced by the band filter-and-replace step
carries one of the six integer passband codes. -/
theorem photOutOf_passband (pr : Int × PhotRow) (r : PhotOut)
    (h : photOutOf pr = some r) : r.passband ∈ ([0, 1, 2, 3, 4, 5] : List Int) := by
  unfold photOutOf at h
  rw [Option.map_eq_some'] at h
  obtain ⟨c, hc, hr⟩ := h
  cases hr
  simpa using bandCode_mem _ _ hc

/-- C6: every row of the photometry table returned by `read_fits` has a
passband in {0,1,2,3,4,5}; rows whose band code is outside the fixed
vocabulary never appear. -/
theorem c6_passband_invariant (phot : List PhotRow) (hdr : List HeadRow)
    (ds : Bool) (hd : List HeadOut) (ph : List PhotOut) (r : PhotOut)
    (hok : readFits phot hdr ds = .ok (hd, ph)) (hr : r ∈ ph) :
    r.passband ∈ ([0, 1, 2, 3, 4, 5] : List Int) := by
  unfold readFits at hok
  by_cases hp : phot = []
  · rw [if_pos hp] at hok
    injection hok with h
    cases h
    simp at hr
  · rw [if_neg hp] at hok
    cases ht : trimPhot phot with
    | error e => rw [ht] at hok; exact (Except.noConfusion hok)
    | ok p1 =>
      rw [ht] at hok
      simp only at hok
      cases hs : segmentArr (hdr.map fun h => toInt32 h.snid) p1 with
      | error e => rw [hs] at hok; exact (Except.noConfusion hok)
      | ok arrID =>
        rw [hs] at hok
        simp only at hok
        injection hok with h
        have hph := congrArg Prod.snd h
        simp only at hph
        rw [← hph] at hr
        rw [List.mem_filterMap] at hr
        obtain ⟨a, _, ha⟩ := hr
        exact photOutOf_passband a r ha

/-- Witness for C6 at a concrete run of `read_fits`. -/
theorem c6_passband_invariant_witness :
    (⟨5, 1, 0, 2, 3⟩ : PhotOut).passband ∈ ([0, 1, 2, 3, 4, 5] : List Int) :=
  c6_passband_invariant [⟨1, "u ", 2, 3⟩] [⟨5, 1, 0, 0, 0, 0⟩] false
    [⟨5, 90, 0, 0, 0, 0⟩] [⟨5, 1, 0, 2, 3⟩] ⟨5, 1, 0, 2, 3⟩ (by decide) (by decide)

theorem fillRangeFrom_length (start stop : Nat) (v : Int) (l : List Int)
    (j : Nat) : (fillRangeFrom start stop v j l).length = l.length := by
  induction l generalizing j with
  | nil => rfl
  | cons x xs ih => simp [fillRangeFrom, ih]

theorem fillRangeFrom_get? (start stop : Nat) (v : Int) (l : List Int)
    (j i : Nat) :
    (fillRangeFrom start stop v j l).get? i =
      (l.get? i).map fun x => if start ≤ j + i ∧ j + i < stop then v else x := by
  induction l generalizing j i with
  | nil => simp [fillRangeFrom]
  | cons x xs ih =>
    cases i with
    | zero => simp [fillRangeFrom]
    | succ i =>
      have harith : j + 1 + i = j + (i + 1) := by omega
      show (fillRangeFrom start stop v (j + 1) xs).get? i = _
      rw [ih (j + 1) i, harith, List.get?_cons_succ]

theorem fillRange_get? (arr : List Int) (start stop : Nat) (v : Int) (i : Nat) :
    (fillRange arr start stop v).get? i =
      (arr.get? i).map fun x => if start ≤ i ∧ i < stop then v else x := by
  have h := fillRangeFrom_get? start stop v arr 0 i
  simpa [fillRange] using h

/-- The value written into a covered cell of the accumulator array. -/
theorem fillRange_get?_covered (arr : List Int) (start stop : Nat) (v : Int)
    (i : Nat) (h1 : start ≤ i) (h2 : i < stop) (h3 : i < arr.length) :
    (fillRange arr start stop v).get? i = some v := by
  rw [fillRange_get?, List.get?_eq_get h3]
  simp [h1, h2]

/-- A cell outside the assigned slice is unchanged. -/
theorem fillRange_get?_outside (arr : List Int) (start stop : Nat) (v : Int)
    (i : Nat) (h : ¬(start ≤ i ∧ i < stop)) :
    (fillRange arr start stop v).get? i = arr.get? i := by
  rw [fillRange_get?]
  cases arr.get? i <;> simp [h]

theorem fillLoop_length (snids : List Int) (ps : List (Nat × Nat)) :
    ∀ arr k res, fillLoop snids arr k ps = .ok res → res.length = arr.length := by
  induction ps with
  | nil =>
    intro arr k res h
    injection h with h
    rw [← h]
  | cons se rest ih =>
    intro arr k res h
    unfold fillLoop at h
    cases hk : snids.get? k with
    | none => rw [hk] at h; exact (Except.noConfusion h)
    | some v =>
      rw [hk] at h
      simp only at h
      have := ih _ _ _ h
      rw [this, fillRange]
      exact fillRangeFrom_length _ _ _ _ _

/-- The loop over `xs ++ ys` runs the loop over `xs`, then the loop over
`ys` with the counter advanced by `xs.length`. -/
theorem fillLoop_append (snids : List Int) (xs ys : List (Nat × Nat)) :
    ∀ arr k res, fillLoop snids arr k (xs ++ ys) = .ok res →
      ∃ mid, fillLoop snids arr k xs = .ok mid ∧
        fillLoop snids mid (k + xs.length) ys = .ok res := by
  induction xs with
  | nil =>
    intro arr k res h
    exact ⟨arr, rfl, by simpa using h⟩
  | cons se rest ih =>
    intro arr k res h
    rw [List.cons_append] at h
    unfold fillLoop at h
    cases hk : snids.get? k with
    | none => rw [hk] at h; exact (Except.noConfusion h)
    | some v =>
      rw [hk] at h
      simp only at h
      obtain ⟨mid, h1, h2⟩ := ih _ _ _ h
      refine ⟨mid, ?_, ?_⟩
      · unfold fillLoop
        rw [hk]
        simp only
        exact h1
      · have harith : k + 1 + rest.length = k + (se :: rest).length := by
          simp; omega
        rw [← harith]
        exact h2

/-- If no remaining boundary pair covers index `i`, the loop leaves cell `i`
unchanged. -/
theorem fillLoop_untouched (snids : List Int) (i : Nat) (ps : List (Nat × Nat)) :
    ∀ arr k res, (∀ se ∈ ps, ¬(se.1 ≤ i ∧ i < se.2)) →
      fillLoop snids arr k ps = .ok res → res.get? i = arr.get? i := by
  induction ps with
  | nil =>
    intro arr k res _ h
    injection h with h
    rw [h]
  | cons se rest ih =>
    intro arr k res hcov h
    unfold fillLoop at h
    cases hk : snids.get? k with
    | none => rw [hk] at h; exact (Except.noConfusion h)
    | some v =>
      rw [hk] at h
      simp only at h
      have hrest : ∀ se' ∈ rest, ¬(se'.1 ≤ i ∧ i < se'.2) :=
        fun se' hse' => hcov se' (by simp [hse'])
      rw [ih _ _ _ hrest h]
      exact fillRange_get?_outside _ _ _ _ _ (hcov se (by simp))

/-- The loop succeeds whenever the header has enough rows for every counter
value it will use. -/
theorem fillLoop_ok_of_le (snids : List Int) (ps : List (Nat × Nat)) :
    ∀ arr k, k + ps.length ≤ snids.length →
      ∃ res, fillLoop snids arr k ps = .ok res := by
  induction ps with
  | nil => intro arr k _; exact ⟨arr, rfl⟩
  | cons se rest ih =>
    intro arr k hle
    have hk : k < snids.length := by simp at hle; omega
    obtain ⟨v, hv⟩ : ∃ v, snids.get? k = some v := by
      rw [List.get?_eq_get hk]; exact ⟨_, rfl⟩
    obtain ⟨res, hres⟩ := ih (fillRange arr se.1 se.2 v) (k + 1) (by simp at hle ⊢; omega)
    refine ⟨res, ?_⟩
    unfold fillLoop
    rw [hv]
    simpa using hres

/-- The loop raises an IndexError as soon as the counter outruns the header:
a nonempty boundary-pair list whose counter range exceeds the header length
always fails. -/
theorem fillLoop_err_of_lt (snids : List Int) (ps : List (Nat × Nat)) :
    ∀ arr k, ps ≠ [] → snids.length < k + ps.length →
      fillLoop snids arr k ps = .error .indexError := by
  induction ps with
  | nil => intro arr k hne _; exact absurd rfl hne
  | cons se rest ih =>
    intro arr k _ hlt
    unfold fillLoop
    cases hk : snids.get? k with
    | none => simp
    | some v =>
      simp only
      have hklt : k < snids.length := by
        rcases List.get?_eq_some.mp hk with ⟨h, _⟩
        exact h
      have hrne : rest ≠ [] := by
        intro hr
        rw [hr] at hlt
        simp at hlt
        omega
      exact ih _ _ hrne (by simp at hlt ⊢; omega)

theorem adjPairs_length (l : List Nat) : (adjPairs l).length = l.length - 1 := by
  unfold adjPairs
  rw [List.length_zip, List.length_tail]
  omega

/-- C2, amended: given a photometry table that survives trimming, the
segmentation completes without raising exactly when the number of remaining
sentinel rows is strictly below the header row count (silently producing an
assignment for every row however the counts mismatch); when the sentinel
count is at least the header row count, `read_fits` raises an IndexError
instead of completing. -/
theorem c2_mismatch_completion (phot : List PhotRow) (hdr : List HeadRow)
    (ds : Bool) (p1 : List PhotRow) (hne : phot ≠ [])
    (ht : trimPhot phot = .ok p1) :
    (∃ res, readFits phot hdr ds = .ok res) ↔
      (sentinelPositions p1).length < hdr.length := by
  have hplen : (adjPairs (0 :: (sentinelPositions p1 ++ [p1.length]))).length =
      (sentinelPositions p1).length + 1 := by
    rw [adjPairs_length]
    simp
  have hslen : (hdr.map fun h => toInt32 h.snid).length = hdr.length := by simp
  unfold readFits
  rw [if_neg hne, ht]
  simp only
  constructor
  · rintro ⟨res, hres⟩
    by_contra hcount
    have herr : segmentArr (hdr.map fun h => toInt32 h.snid) p1 =
        .error .indexError := by
      unfold segmentArr
      apply fillLoop_err_of_lt
      · intro hnil
        rw [hnil] at hplen
        simp at hplen
      · rw [hslen, hplen]
        omega
    rw [herr] at hres
    exact (Except.noConfusion hres)
  · intro hcount
    obtain ⟨arrID, hfill⟩ := fillLoop_ok_of_le (hdr.map fun h => toInt32 h.snid)
      (adjPairs (0 :: (sentinelPositions p1 ++ [p1.length])))
      (List.replicate p1.length 0) 0 (by rw [hslen, hplen]; omega)
    have hseg : segmentArr (hdr.map fun h => toInt32 h.snid) p1 = .ok arrID := hfill
    rw [hseg]
    simp only
    exact ⟨_, rfl⟩

/-- Witness for the amended C2: a sentinel-free one-row table with a one-row
header (sentinel count 0, header count 1, a mismatch with header count minus
one) still completes. -/
theorem c2_mismatch_completion_witness :
    (∃ res, readFits [⟨1, "u ", 0, 0⟩] [⟨7, 1, 0, 0, 0, 0⟩] false = .ok res) ↔
      (sentinelPositions [⟨1, "u ", 0, 0⟩]).length <
        ([⟨7, 1, 0, 0, 0, 0⟩] : List HeadRow).length :=
  c2_mismatch_completion [⟨1, "u ", 0, 0⟩] [⟨7, 1, 0, 0, 0, 0⟩] false
    [⟨1, "u ", 0, 0⟩] (by decide) (by decide)

/-- A successful `get?` splits a list around the found element. -/
theorem get?_split {α : Type} (l : List α) (k : Nat) (x : α)
    (h : l.get? k = some x) : ∃ u w, l = u ++ x :: w ∧ u.length = k := by
  induction l generalizing k with
  | nil => rw [List.get?_nil] at h; exact Option.noConfusion h
  | cons a l ih =>
    cases k with
    | zero =>
      rw [List.get?_cons_zero] at h
      obtain rfl : a = x := Option.some.inj h
      exact ⟨[], l, rfl, rfl⟩
    | succ k =>
      rw [List.get?_cons_succ] at h
      obtain ⟨u, w, hl, hlen⟩ := ih k h
      exact ⟨a :: u, w, by rw [hl]; rfl, by simp [hlen]⟩

/-- Sentinel positions counted from `j` lie in `[j, j + length)`. -/
theorem sentinelPosFrom_mem (l : List PhotRow) :
    ∀ j x, x ∈ sentinelPosFrom j l → j ≤ x ∧ x < j + l.length := by
  induction l with
  | nil => intro j x hx; simp [sentinelPosFrom] at hx
  | cons r rs ih =>
    intro j x hx
    unfold sentinelPosFrom at hx
    by_cases hm : r.mjd = sentinel
    · rw [if_pos hm] at hx
      rcases List.mem_cons.mp hx with rfl | hx'
      · refine ⟨le_refl x, ?_⟩
        simp
      · obtain ⟨h1, h2⟩ := ih (j + 1) x hx'
        exact ⟨by omega, by simp; omega⟩
    · rw [if_neg hm] at hx
      obtain ⟨h1, h2⟩ := ih (j + 1) x hx
      exact ⟨by omega, by simp; omega⟩

/-- `np.where` returns strictly increasing positions. -/
theorem sentinelPosFrom_sorted (l : List PhotRow) :
    ∀ j, List.Pairwise (· < ·) (sentinelPosFrom j l) := by
  induction l with
  | nil => intro j; simp [sentinelPosFrom]
  | cons r rs ih =>
    intro j
    unfold sentinelPosFrom
    by_cases hm : r.mjd = sentinel
    · rw [if_pos hm, List.pairwise_cons]
      refine ⟨fun x hx => ?_, ih (j + 1)⟩
      have := (sentinelPosFrom_mem rs (j + 1) x hx).1
      omega
    · rw [if_neg hm]
      exact ih (j + 1)

theorem adjPairs_cons_cons (a b : Nat) (t : List Nat) :
    adjPairs (a :: b :: t) = (a, b) :: adjPairs (b :: t) := rfl

theorem adjPairs_append_cons (xs : List Nat) (a : Nat) (ys : List Nat) :
    adjPairs (xs ++ a :: ys) = adjPairs (xs ++ [a]) ++ adjPairs (a :: ys) := by
  induction xs with
  | nil => simp [adjPairs]
  | cons x xs ih =>
    cases xs with
    | nil => simp [adjPairs_cons_cons, adjPairs]
    | cons x' xs' =>
      simp only [List.cons_append, adjPairs_cons_cons] at ih ⊢
      rw [ih]

theorem adjPairs_fst_mem (l : List Nat) (se : Nat × Nat) (h : se ∈ adjPairs l) :
    se.1 ∈ l := by
  unfold adjPairs at h
  obtain ⟨a, b⟩ := se
  exact (List.of_mem_zip h).1

/-- C9: during segmentation (before any separator dropping or band
filtering), a remaining interior sentinel row — the `k`-th sentinel of the
trimmed table, sitting at row index `i` — is assigned the `(k+1)`-th header
key, i.e. the key of the block that follows it, not of the block it
terminates. -/
theorem c9_sentinel_gets_following_key (p1 : List PhotRow) (snids : List Int)
    (arrID : List Int) (k i : Nat) (hseg : segmentArr snids p1 = .ok arrID)
    (hk : (sentinelPositions p1).get? k = some i) :
    arrID.get? i = snids.get? (k + 1) := by
  obtain ⟨u, w, hdecomp, hulen⟩ := get?_split (sentinelPositions p1) k i hk
  have hi_mem : i ∈ sentinelPositions p1 := List.get?_mem hk
  have hi_lt : i < p1.length := by
    have := (sentinelPosFrom_mem p1 0 i hi_mem).2
    omega
  have hbounds : 0 :: (sentinelPositions p1 ++ [p1.length]) =
      (0 :: u) ++ i :: (w ++ [p1.length]) := by
    rw [hdecomp]
    simp
  obtain ⟨e, rest, hw⟩ : ∃ e rest, w ++ [p1.length] = e :: rest := by
    cases w with
    | nil => exact ⟨p1.length, [], rfl⟩
    | cons e w' => exact ⟨e, w' ++ [p1.length], rfl⟩
  have hwgt : ∀ x ∈ w ++ [p1.length], i < x := by
    intro x hx
    rcases List.mem_append.mp hx with hxw | hxl
    · have hpw : List.Pairwise (· < ·) (sentinelPositions p1) :=
        sentinelPosFrom_sorted p1 0
      rw [hdecomp, List.pairwise_append] at hpw
      exact (List.pairwise_cons.mp hpw.2.1).1 x hxw
    · simp at hxl
      omega
  have hie : i < e := hwgt e (by rw [hw]; simp)
  have hrest_gt : ∀ x ∈ rest, i < x := fun x hx => hwgt x (by rw [hw]; simp [hx])
  have hpairs : adjPairs (0 :: (sentinelPositions p1 ++ [p1.length])) =
      adjPairs ((0 :: u) ++ [i]) ++ ((i, e) :: adjPairs (e :: rest)) := by
    rw [hbounds, adjPairs_append_cons, hw, adjPairs_cons_cons]
  have hP1len : (adjPairs ((0 :: u) ++ [i])).length = k + 1 := by
    rw [adjPairs_length]
    simp [hulen]
  unfold segmentArr at hseg
  rw [hpairs] at hseg
  obtain ⟨mid, hmid, hrest⟩ := fillLoop_append snids _ _ _ _ _ hseg
  rw [hP1len, Nat.zero_add] at hrest
  unfold fillLoop at hrest
  cases hv : snids.get? (k + 1) with
  | none => rw [hv] at hrest; exact (Except.noConfusion hrest)
  | some v =>
    rw [hv] at hrest
    simp only at hrest
    have huntouched : arrID.get? i = (fillRange mid i e v).get? i := by
      refine fillLoop_untouched snids i _ _ _ _ ?_ hrest
      intro se hse
      have h1 : se.1 ∈ e :: rest := adjPairs_fst_mem _ _ hse
      have h2 : i < se.1 := by
        rcases List.mem_cons.mp h1 with heq | hmem
        · omega
        · exact hrest_gt _ hmem
      intro hcov
      omega
    have hmidlen : mid.length = p1.length := by
      have := fillLoop_length snids _ _ _ _ hmid
      rw [this]
      simp
    rw [huntouched,
      fillRange_get?_covered mid i e v i (le_refl i) hie (by rw [hmidlen]; exact hi_lt)]

/-- Witness for C9: with two header keys 10 and 20, the interior sentinel at
index 1 receives key 20 (the following block), not key 10. -/
theorem c9_sentinel_gets_following_key_witness :
    ([10, 20, 20] : List Int).get? 1 = ([10, 20] : List Int).get? (0 + 1) :=
  c9_sentinel_gets_following_key
    [⟨1, "u ", 0, 0⟩, ⟨sentinel, "- ", 0, 0⟩, ⟨2, "g ", 0, 0⟩]
    [10, 20] [10, 20, 20] 0 1 (by decide) (by decide)

theorem listStartsWith_length (pat : List Char) :
    ∀ s, listStartsWith pat s = true → pat.length ≤ s.length := by
  induction pat with
  | nil => intro s _; simp
  | cons p ps ih =>
    intro s h
    cases s with
    | nil => simp [listStartsWith] at h
    | cons c cs =>
      simp only [listStartsWith, Bool.and_eq_true] at h
      have := ih cs h.2
      simp
      omega

theorem listStartsWith_append (pat : List Char) :
    ∀ s t, listStartsWith pat s = true → listStartsWith pat (s ++ t) = true := by
  induction pat with
  | nil => intro s t _; rfl
  | cons p ps ih =>
    intro s t h
    cases s with
    | nil => simp [listStartsWith] at h
    | cons c cs =>
      simp only [listStartsWith, Bool.and_eq_true] at h
      simp only [List.cons_append, listStartsWith, Bool.and_eq_true]
      exact ⟨h.1, ih cs t h.2⟩

theorem listStartsWith_restrict (pat : List Char) :
    ∀ s t, pat.length ≤ s.length → listStartsWith pat (s ++ t) = true →
      listStartsWith pat s = true := by
  induction pat with
  | nil => intro s t _ _; rfl
  | cons p ps ih =>
    intro s t hlen h
    cases s with
    | nil => simp at hlen
    | cons c cs =>
      simp only [List.cons_append, listStartsWith, Bool.and_eq_true] at h
      simp only [listStartsWith, Bool.and_eq_true]
      exact ⟨h.1, ih cs t (by simp at hlen; omega) h.2⟩

/-- A match of `pat` at the front of `s ++ x :: t` either fits inside `s` or
contains the separator character `x`. -/
theorem listStartsWith_span (pat : List Char) :
    ∀ s t (x : Char), listStartsWith pat (s ++ x :: t) = true →
      pat.length ≤ s.length ∨ x ∈ pat := by
  induction pat with
  | nil => intro s t x _; left; simp
  | cons p ps ih =>
    intro s t x h
    cases s with
    | nil =>
      right
      simp only [List.nil_append, listStartsWith, Bool.and_eq_true,
        decide_eq_true_eq] at h
      rw [h.1]
      exact List.mem_cons_self x ps
    | cons c cs =>
      simp only [List.cons_append, listStartsWith, Bool.and_eq_true] at h
      rcases ih cs t x h.2 with hl | hm
      · left; simp; omega
      · right; exact List.mem_cons_of_mem p hm

/-- The fuel argument of `repAux` is irrelevant once it covers the input. -/
theorem repAux_congr (pat rep : List Char) :
    ∀ f₁ f₂ s, s.length ≤ f₁ → s.length ≤ f₂ →
      repAux pat rep f₁ s = repAux pat rep f₂ s := by
  intro f₁
  induction f₁ with
  | zero =>
    intro f₂ s h1 _
    have hs : s = [] := List.length_eq_zero.mp (Nat.le_zero.mp h1)
    subst hs
    cases f₂ <;> rfl
  | succ f ih =>
    intro f₂ s h1 h2
    cases s with
    | nil => cases f₂ <;> rfl
    | cons c cs =>
      cases f₂ with
      | zero => simp at h2
      | succ f₂' =>
        unfold repAux
        by_cases hcond : pat ≠ [] ∧ listStartsWith pat (c :: cs) = true
        · rw [if_pos hcond, if_pos hcond]
          have hplen : 1 ≤ pat.length := by
            have := List.length_pos.mpr hcond.1
            omega
          have hdlen : (List.drop pat.length (c :: cs)).length ≤ cs.length := by
            simp
            omega
          congr 1
          exact ih f₂' _ (by simp at h1; omega) (by simp at h2; omega)
        · rw [if_neg hcond, if_neg hcond]
          congr 1
          exact ih f₂' cs (by simp at h1; omega) (by simp at h2; omega)

theorem replaceAll_cons (pat rep : List Char) (c : Char) (cs : List Char) :
    replaceAll pat rep (c :: cs) =
      if pat ≠ [] ∧ listStartsWith pat (c :: cs) = true then
        rep ++ replaceAll pat rep (List.drop pat.length (c :: cs))
      else c :: replaceAll pat rep cs := by
  show repAux pat rep (cs.length + 1) (c :: cs) = _
  unfold repAux
  by_cases hcond : pat ≠ [] ∧ listStartsWith pat (c :: cs) = true
  · rw [if_pos hcond, if_pos hcond]
    congr 1
    have hplen : 1 ≤ pat.length := by
      have := List.length_pos.mpr hcond.1
      omega
    exact repAux_congr pat rep _ _ _ (by simp; omega) (le_refl _)
  · rw [if_neg hcond, if_neg hcond]
    rfl

/-- A character outside the pattern passes through the scan untouched. -/
theorem replaceAll_cons_of_notMem (pat rep : List Char) (x : Char)
    (hx : x ∉ pat) (b : List Char) :
    replaceAll pat rep (x :: b) = x :: replaceAll pat rep b := by
  rw [replaceAll_cons]
  refine if_neg ?_
  rintro ⟨hne, hsw⟩
  cases pat with
  | nil => exact hne rfl
  | cons p ps =>
    simp only [listStartsWith, Bool.and_eq_true, decide_eq_true_eq] at hsw
    exact hx (by rw [hsw.1]; exact List.mem_cons_self x ps)

/-- The scan commutes with a leading block that cannot contain the start of
a match (its characters never equal the pattern head). -/
theorem replaceAll_append_right (p0 : Char) (pr rep : List Char) :
    ∀ b t : List Char, p0 ∉ b →
      replaceAll (p0 :: pr) rep (b ++ t) = b ++ replaceAll (p0 :: pr) rep t := by
  intro b
  induction b with
  | nil => intro t _; rfl
  | cons c b' ih =>
    intro t hb
    have hc : p0 ≠ c := fun h => hb (by rw [h]; exact List.mem_cons_self c b')
    rw [List.cons_append, replaceAll_cons]
    rw [if_neg (by
      rintro ⟨_, hsw⟩
      simp only [listStartsWith, Bool.and_eq_true, decide_eq_true_eq] at hsw
      exact hc hsw.1)]
    rw [ih t (fun h => hb (List.mem_cons_of_mem c h))]
    rfl

/-- Python `str.replace` distributes over a separator character that does
not occur in the (nonempty) pattern: occurrences cannot straddle it. -/
theorem replaceAll_sep (pat rep : List Char) (x : Char) (hp : pat ≠ [])
    (hx : x ∉ pat) :
    ∀ n (a b : List Char), a.length ≤ n →
      replaceAll pat rep (a ++ x :: b) =
        replaceAll pat rep a ++ x :: replaceAll pat rep b := by
  intro n
  induction n with
  | zero =>
    intro a b ha
    have : a = [] := List.length_eq_zero.mp (Nat.le_zero.mp ha)
    subst this
    rw [List.nil_append, replaceAll_cons_of_notMem pat rep x hx b]
    rfl
  | succ n ih =>
    intro a b ha
    cases a with
    | nil =>
      rw [List.nil_append, replaceAll_cons_of_notMem pat rep x hx b]
      rfl
    | cons c a' =>
      have hplen : 1 ≤ pat.length := by
        have := List.length_pos.mpr hp
        omega
      rw [List.cons_append, replaceAll_cons, replaceAll_cons]
      by_cases hG2 : listStartsWith pat (c :: a') = true
      · have hG1 : listStartsWith pat (c :: (a' ++ x :: b)) = true := by
          have := listStartsWith_append pat (c :: a') (x :: b) hG2
          simpa using this
        rw [if_pos ⟨hp, hG1⟩, if_pos ⟨hp, hG2⟩]
        have hplen2 : pat.length ≤ a'.length + 1 := by
          have := listStartsWith_length pat (c :: a') hG2
          simpa using this
        have hdrop : List.drop pat.length (c :: (a' ++ x :: b)) =
            List.drop pat.length (c :: a') ++ x :: b := by
          have hsplit : (c :: (a' ++ x :: b)) = (c :: a') ++ (x :: b) := by simp
          rw [hsplit, List.drop_append_eq_append_drop]
          have hz : pat.length - (c :: a').length = 0 := by
            rw [List.length_cons]
            omega
          rw [hz, List.drop_zero]
        have ha' : a'.length ≤ n := by
          simp at ha
          omega
        rw [hdrop, ih _ _ (by rw [List.length_drop, List.length_cons]; omega)]
        rw [List.append_assoc]
      · have hG1 : ¬listStartsWith pat (c :: (a' ++ x :: b)) = true := by
          intro hval
          have hspan := listStartsWith_span pat (c :: a') b x (by simpa using hval)
          rcases hspan with hl | hm
          · exact hG2 (listStartsWith_restrict pat (c :: a') (x :: b) hl
              (by simpa using hval))
          · exact hx hm
        rw [if_neg (by simp [hG1]), if_neg (by simp [hG2])]
        rw [ih a' b (by simp at ha; omega)]
        rfl

/-- C10: the HEAD path is derived by replacing every occurrence of "PHOT"
in the entire input path string, so the substitution acts independently on
every slash-separated component — directory components containing "PHOT"
are rewritten too, as the concrete instance shows. -/
theorem c10_header_path_replaces_whole_path :
    (∀ d f : String,
      headerPath (d ++ "/" ++ f) = headerPath d ++ "/" ++ headerPath f) ∧
    headerPath "/data/PHOT_runs/LSST_PHOT.FITS" = "/data/HEAD_runs/LSST_HEAD.FITS" := by
  constructor
  · intro d f
    have hdata : (d ++ "/" ++ f).data = d.data ++ '/' :: f.data := by
      simp [String.data_append]
    have hsep := replaceAll_sep ("PHOT".data) ("HEAD".data) '/'
      (by decide) (by decide) (d.data.length) d.data f.data (le_refl _)
    have hdata2 : (headerPath d ++ "/" ++ headerPath f).data =
        replaceAll ("PHOT".data) ("HEAD".data) d.data ++
          '/' :: replaceAll ("PHOT".data) ("HEAD".data) f.data := by
      simp [headerPath, strReplace, String.data_append,
        (by decide : ("/" : String).data = ['/'])]
    calc headerPath (d ++ "/" ++ f)
        = String.mk (replaceAll ("PHOT".data) ("HEAD".data) (d ++ "/" ++ f).data) :=
          rfl
      _ = String.mk ((headerPath d ++ "/" ++ headerPath f).data) := by
          rw [hdata, hsep, hdata2]
      _ = headerPath d ++ "/" ++ headerPath f := rfl
  · decide

theorem takeWhile_append_stop (p : Char → Bool) :
    ∀ (xs : List Char) (y : Char) (ys : List Char),
      (∀ x ∈ xs, p x = true) → p y = false →
      List.takeWhile p (xs ++ y :: ys) = xs := by
  intro xs
  induction xs with
  | nil =>
    intro y ys _ hy
    rw [List.nil_append, List.takeWhile_cons, hy]
    simp
  | cons x xs' ih =>
    intro y ys hxs hy
    have hx := hxs x (List.mem_cons_self x xs')
    rw [List.cons_append, List.takeWhile_cons, hx]
    simp only [if_true]
    rw [ih y ys (fun z hz => hxs z (List.mem_cons_of_mem _ hz)) hy]

/-- `os.path.basename` of `dir ++ "/" ++ name` is `name` when the name has
no slash. -/
theorem basename_of_append (d s : String) (hs : ∀ c ∈ s.data, c ≠ '/') :
    basename (d ++ "/" ++ s) = s := by
  unfold basename
  have hdata : (d ++ "/" ++ s).data = d.data ++ '/' :: s.data := by
    simp [String.data_append]
  have hform : (d.data ++ '/' :: s.data).reverse =
      s.data.reverse ++ '/' :: d.data.reverse := by
    simp
  rw [hdata, hform, takeWhile_append_stop _ _ _ _ ?hall ?hstop]
  case hall =>
    intro x hx
    have hxs : x ∈ s.data := List.mem_reverse.mp hx
    simp [hs x hxs]
  case hstop => simp
  rw [List.reverse_reverse]

/-- `str.replace` leaves a leading block alone when the block cannot contain
the pattern head, and rewrites the concrete tail. -/
theorem strReplace_block (b sfx pat rep out : String) (p0 : Char) (pr : List Char)
    (hpat : pat.data = p0 :: pr) (hb : p0 ∉ b.data)
    (hconc : replaceAll pat.data rep.data sfx.data = out.data) :
    strReplace (b ++ sfx) pat rep = b ++ out := by
  unfold strReplace
  rw [String.data_append, hpat,
    replaceAll_append_right p0 pr rep.data b.data sfx.data hb, ← hpat, hconc,
    ← String.data_append]

/-- C7, amended: for inputs following the gzipped convention
`<batch>_PHOT.FITS.gz` the computed outputs are `<batch>_HEAD.csv` and
`<batch>_PHOT.csv`; for the bare convention `<batch>_PHOT.FITS` neither
substitution fires and both computed output paths keep the input basename
unchanged. -/
theorem c7_output_names_gz_only (od d b : String)
    (hslash : ∀ c ∈ b.data, c ≠ '/') (hP : 'P' ∉ b.data) (hdot : '.' ∉ b.data) :
    metaPath od (d ++ "/" ++ (b ++ "_PHOT.FITS.gz")) =
        joinPath od (b ++ "_HEAD.csv") ∧
      lcPath od (d ++ "/" ++ (b ++ "_PHOT.FITS.gz")) =
        joinPath od (b ++ "_PHOT.csv") ∧
      metaPath od (d ++ "/" ++ (b ++ "_PHOT.FITS")) =
        joinPath od (b ++ "_PHOT.FITS") ∧
      lcPath od (d ++ "/" ++ (b ++ "_PHOT.FITS")) =
        joinPath od (b ++ "_PHOT.FITS") := by
  have hnoslash : ∀ (sfx : String), (∀ c ∈ sfx.data, c ≠ '/') →
      ∀ c ∈ (b ++ sfx).data, c ≠ '/' := by
    intro sfx hsfx c hc
    rw [String.data_append] at hc
    rcases List.mem_append.mp hc with h | h
    · exact hslash c h
    · exact hsfx c h
  have hbase_gz : basename (d ++ "/" ++ (b ++ "_PHOT.FITS.gz")) =
      b ++ "_PHOT.FITS.gz" :=
    basename_of_append d _ (hnoslash _ (by decide))
  have hbase_plain : basename (d ++ "/" ++ (b ++ "_PHOT.FITS")) =
      b ++ "_PHOT.FITS" :=
    basename_of_append d _ (hnoslash _ (by decide))
  refine ⟨?_, ?_, ?_, ?_⟩
  · unfold metaPath
    rw [hbase_gz, strReplace_block b "_PHOT.FITS.gz" "PHOT.FITS.gz" "HEAD.csv"
      "_HEAD.csv" 'P' ("HOT.FITS.gz".data) (by decide) hP (by decide)]
  · unfold lcPath
    rw [hbase_gz, strReplace_block b "_PHOT.FITS.gz" ".FITS.gz" ".csv"
      "_PHOT.csv" '.' ("FITS.gz".data) (by decide) hdot (by decide)]
  · unfold metaPath
    rw [hbase_plain, strReplace_block b "_PHOT.FITS" "PHOT.FITS.gz" "HEAD.csv"
      "_PHOT.FITS" 'P' ("HOT.FITS.gz".data) (by decide) hP (by decide)]
  · unfold lcPath
    rw [hbase_plain, strReplace_block b "_PHOT.FITS" ".FITS.gz" ".csv"
      "_PHOT.FITS" '.' ("FITS.gz".data) (by decide) hdot (by decide)]

/-- Witness for the amended C7 at a concrete batch name. -/
theorem c7_output_names_gz_only_witness :
    metaPath "out" ("in" ++ "/" ++ ("X" ++ "_PHOT.FITS.gz")) =
        joinPath "out" ("X" ++ "_HEAD.csv") ∧
      lcPath "out" ("in" ++ "/" ++ ("X" ++ "_PHOT.FITS.gz")) =
        joinPath "out" ("X" ++ "_PHOT.csv") ∧
      metaPath "out" ("in" ++ "/" ++ ("X" ++ "_PHOT.FITS")) =
        joinPath "out" ("X" ++ "_PHOT.FITS") ∧
      lcPath "out" ("in" ++ "/" ++ ("X" ++ "_PHOT.FITS")) =
        joinPath "out" ("X" ++ "_PHOT.FITS") :=
  c7_output_names_gz_only "out" "in" "X" (by decide) (by decide) (by decide)

/-- Counterexample to C7 as stated: for a discovered input file named with
the bare `.FITS` convention (no `.gz`), neither substitution fires, so both
computed output paths keep the input basename instead of becoming
`<batch>_HEAD.csv` / `<batch>_PHOT.csv`. -/
theorem c7_counterexample :
    metaPath "out" "in/X_PHOT.FITS" = "out/X_PHOT.FITS" ∧
    lcPath "out" "in/X_PHOT.FITS" = "out/X_PHOT.FITS" ∧
    metaPath "out" "in/X_PHOT.FITS" ≠ "out/X_HEAD.csv" ∧
    lcPath "out" "in/X_PHOT.FITS" ≠ "out/X_PHOT.csv" := by decide

example : headerPath "/data/PHOT_runs/LSST_PHOT.FITS" = "/data/HEAD_runs/LSST_HEAD.FITS" := by
  decide

example : metaPath "out" "in/X_PHOT.FITS.gz" = "out/X_HEAD.csv" := by decide

example : metaPath "out" "in/X_PHOT.FITS" = "out/X_PHOT.FITS" := by decide

example : lcPath "out" "in/X_PHOT.FITS.gz" = "out/X_PHOT.csv" := by decide

example :
    readFits [⟨1, "u ", 0, 0⟩, ⟨sentinel, "- ", 0, 0⟩, ⟨2, "g ", 0, 0⟩]
      [⟨7, 1, 0, 0, 0, 0⟩] false = .error .indexError := by decide
